import Mathlib

/-!
# Verification of the market-feed system (gateway / orderbook / strategy / order manager)

Shallow embedding, in Lean 4, of the Python sources of the repository:

* `gateway.py` — TCP broadcaster of price and news ticks,
* `orderbook.py` — receive-side framing parser, shared price table creator/updater,
* `shared_memory_utils.py` — `SharedPriceBook` (attach, `update`, `read`),
* `strategy.py` — news receive loop (same framing/reconnect shape as the orderbook),
* `order_manager.py` — delimiter-framed order receiver.

Bytes and Unicode codepoints are modelled as `Nat`; Python byte strings and
text strings are `List Nat`.  Prices are modelled as `ℚ` (the claims under
verification are about the symbolic formulas of the source, not IEEE-754
artifacts).  Fallible operations return `Option` or `Except`.
-/

/-- The framing delimiter byte, ASCII `*` (gateway.py / orderbook.py / strategy.py /
order_manager.py all define `MESSAGE_DELIMITER = b'*'`). -/
def MESSAGE_DELIMITER : Nat := 42

/-! ## First-occurrence splitting

Python's `buffer.find(delim)` followed by slicing `buffer[:idx]` / `buffer[idx+1:]`,
and `txt.split(sep, 1)`, both split a sequence at the first position satisfying a
predicate.  `splitAtP p l` returns `none` when no element satisfies `p` (Python
`find` returning `-1`, `split` yielding a single part), and otherwise the pair of
the prefix before the first hit and the suffix after it. -/

def splitAtP (p : Nat → Bool) : List Nat → Option (List Nat × List Nat)
  | [] => none
  | b :: rest =>
    if p b then some ([], rest)
    else (splitAtP p rest).map (fun q => (b :: q.1, q.2))

/-- Splitting at the first occurrence of one byte (Python `find` + slicing,
and `split(sep, 1)` restricted to its first two parts). -/
def splitAtByte (sep : Nat) : List Nat → Option (List Nat × List Nat) :=
  splitAtP (fun c => c == sep)

theorem splitAtByte_nil (sep : Nat) : splitAtByte sep [] = none := rfl

theorem splitAtByte_cons (sep b : Nat) (rest : List Nat) :
    splitAtByte sep (b :: rest)
      = if b = sep then some ([], rest)
        else (splitAtByte sep rest).map (fun q => (b :: q.1, q.2)) := by
  simp only [splitAtByte, splitAtP, beq_iff_eq]

theorem splitAtByte_none {sep : Nat} :
    ∀ {l : List Nat}, splitAtByte sep l = none → sep ∉ l := by
  intro l
  induction l with
  | nil => intro _ h; cases h
  | cons b rest ih =>
    intro h hm
    rw [splitAtByte_cons] at h
    by_cases hb : b = sep
    · rw [if_pos hb] at h; cases h
    · rw [if_neg hb] at h
      cases hsp : splitAtByte sep rest with
      | none =>
        rcases List.mem_cons.mp hm with hm1 | hm1
        · exact hb hm1.symm
        · exact ih hsp hm1
      | some q => rw [hsp] at h; cases h

theorem splitAtByte_some {sep : Nat} :
    ∀ {l s r : List Nat}, splitAtByte sep l = some (s, r) →
      l = s ++ sep :: r ∧ sep ∉ s := by
  intro l
  induction l with
  | nil => intro s r h; cases h
  | cons b rest ih =>
    intro s r h
    rw [splitAtByte_cons] at h
    by_cases hb : b = sep
    · rw [if_pos hb] at h
      obtain ⟨hs, hr⟩ := Prod.mk.injEq .. ▸ Option.some.inj h
      subst hb; subst hr
      rw [← hs]
      exact ⟨rfl, by simp⟩
    · rw [if_neg hb] at h
      cases hsp : splitAtByte sep rest with
      | none => rw [hsp] at h; cases h
      | some q =>
        rw [hsp] at h
        obtain ⟨q1, q2⟩ := q
        simp only [Option.map_some', Option.some.injEq, Prod.mk.injEq] at h
        obtain ⟨hs, hr⟩ := h
        obtain ⟨hrest, hnotin⟩ := ih hsp
        subst hr
        constructor
        · rw [← hs, hrest]; rfl
        · rw [← hs]
          intro hmem
          rcases List.mem_cons.mp hmem with hmem | hmem
          · exact hb hmem.symm
          · exact hnotin hmem

theorem splitAtByte_append {sep : Nat} :
    ∀ {s : List Nat}, sep ∉ s → ∀ (r : List Nat),
      splitAtByte sep (s ++ sep :: r) = some (s, r) := by
  intro s
  induction s with
  | nil =>
    intro _ r
    rw [List.nil_append, splitAtByte_cons, if_pos rfl]
  | cons b rest ih =>
    intro h r
    have hb : ¬ b = sep := fun hb => h (by simp [hb])
    have hrest : sep ∉ rest := fun hm => h (by simp [hm])
    rw [List.cons_append, splitAtByte_cons, if_neg hb, ih hrest r]
    rfl

theorem splitAtByte_some_length {sep : Nat} {l s r : List Nat}
    (h : splitAtByte sep l = some (s, r)) : r.length < l.length := by
  obtain ⟨hl, _⟩ := splitAtByte_some h
  subst hl
  simp only [List.length_append, List.length_cons]
  omega

/-! ## The framing drain loop

`orderbook.py` lines 124-129 (and identically `strategy.py` lines 120-125,
`order_manager.py` lines 34-35): repeatedly find the delimiter in the buffer,
cut off the segment before it, and keep the remainder buffered.  Each
iteration discards at least the delimiter byte, so the loop runs at most
`buffer.length` times; the fuel argument makes that explicit while keeping the
definition executable. -/

def drainLoop : Nat → List Nat → List (List Nat) × List Nat
  | 0, buf => ([], buf)
  | fuel + 1, buf =>
    match splitAtByte MESSAGE_DELIMITER buf with
    | none => ([], buf)
    | some (seg, rest) =>
      let p := drainLoop fuel rest
      (seg :: p.1, p.2)

/-- Extract every complete delimiter-terminated segment from the buffer,
returning the segments in order together with the trailing partial payload. -/
def drainAll (buf : List Nat) : List (List Nat) × List Nat :=
  drainLoop buf.length buf

theorem drainLoop_fuel :
    ∀ (f1 : Nat) (buf : List Nat) (f2 : Nat), buf.length ≤ f1 → buf.length ≤ f2 →
      drainLoop f1 buf = drainLoop f2 buf := by
  intro f1
  induction f1 with
  | zero =>
    intro buf f2 h1 _
    have hbuf : buf = [] := List.eq_nil_of_length_eq_zero (Nat.le_zero.mp h1)
    subst hbuf
    cases f2 with
    | zero => rfl
    | succ f => simp [drainLoop, splitAtByte_nil]
  | succ f ih =>
    intro buf f2 h1 h2
    cases f2 with
    | zero =>
      have hbuf : buf = [] := List.eq_nil_of_length_eq_zero (Nat.le_zero.mp h2)
      subst hbuf
      simp [drainLoop, splitAtByte_nil]
    | succ g =>
      cases hsp : splitAtByte MESSAGE_DELIMITER buf with
      | none => simp only [drainLoop, hsp]
      | some q =>
        obtain ⟨seg, rest⟩ := q
        have hlen := splitAtByte_some_length hsp
        simp only [drainLoop, hsp]
        rw [ih rest g (by omega) (by omega)]

/-- Unfolding equation for `drainAll`: one iteration of the source loop. -/
theorem drainAll_eq (buf : List Nat) :
    drainAll buf
      = match splitAtByte MESSAGE_DELIMITER buf with
        | none => ([], buf)
        | some (seg, rest) => (seg :: (drainAll rest).1, (drainAll rest).2) := by
  cases hsp : splitAtByte MESSAGE_DELIMITER buf with
  | none =>
    cases hb : buf with
    | nil => simp [drainAll, drainLoop]
    | cons x xs => subst hb; simp only [drainAll, List.length_cons, drainLoop, hsp]
  | some q =>
    obtain ⟨seg, rest⟩ := q
    have hlen := splitAtByte_some_length hsp
    cases hb : buf with
    | nil => rw [hb] at hsp; cases hsp
    | cons x xs =>
      subst hb
      simp only [drainAll, List.length_cons, drainLoop, hsp]
      have hr : drainLoop xs.length rest = drainLoop rest.length rest := by
        apply drainLoop_fuel
        · simp only [List.length_cons] at hlen; omega
        · exact Nat.le_refl _
      rw [hr]

/-- Concatenate segments, terminating each with the delimiter byte. -/
def joinD (segs : List (List Nat)) : List Nat :=
  (segs.map (fun s => s ++ [MESSAGE_DELIMITER])).flatten

theorem joinD_nil : joinD [] = [] := rfl

theorem joinD_cons (s : List Nat) (segs : List (List Nat)) :
    joinD (s :: segs) = s ++ MESSAGE_DELIMITER :: joinD segs := by
  simp [joinD]

/-- Draining a buffer made of delimiter-free complete segments followed by any
tail yields exactly those segments followed by whatever the tail drains to. -/
theorem drainAll_joinD :
    ∀ (segs : List (List Nat)), (∀ s ∈ segs, MESSAGE_DELIMITER ∉ s) →
      ∀ (t : List Nat),
        drainAll (joinD segs ++ t)
          = (segs ++ (drainAll t).1, (drainAll t).2) := by
  intro segs
  induction segs with
  | nil => intro _ t; simp [joinD_nil]
  | cons s rest ih =>
    intro h t
    have hs : MESSAGE_DELIMITER ∉ s := h s (by simp)
    have hrest : ∀ x ∈ rest, MESSAGE_DELIMITER ∉ x := fun x hx => h x (by simp [hx])
    rw [joinD_cons, List.append_assoc, List.cons_append,
      drainAll_eq, splitAtByte_append hs (joinD rest ++ t)]
    dsimp only
    rw [ih hrest t]
    simp

/-- A buffer with no delimiter drains to nothing, unchanged. -/
theorem drainAll_no_delim {buf : List Nat} (h : MESSAGE_DELIMITER ∉ buf) :
    drainAll buf = ([], buf) := by
  rw [drainAll_eq]
  cases hsp : splitAtByte MESSAGE_DELIMITER buf with
  | none => rfl
  | some q =>
    obtain ⟨seg, rest⟩ := q
    obtain ⟨hl, _⟩ := splitAtByte_some hsp
    exact absurd (hl ▸ (by simp : MESSAGE_DELIMITER ∈ seg ++ MESSAGE_DELIMITER :: rest)) h

/-- Every buffer decomposes as the delimiter-joined drained segments plus the
drained remainder; the segments and the remainder are delimiter-free. -/
theorem drainAll_decompose :
    ∀ (buf : List Nat),
      joinD (drainAll buf).1 ++ (drainAll buf).2 = buf
      ∧ (∀ s ∈ (drainAll buf).1, MESSAGE_DELIMITER ∉ s)
      ∧ MESSAGE_DELIMITER ∉ (drainAll buf).2 := by
  suffices h : ∀ (n : Nat) (buf : List Nat), buf.length ≤ n →
      joinD (drainAll buf).1 ++ (drainAll buf).2 = buf
      ∧ (∀ s ∈ (drainAll buf).1, MESSAGE_DELIMITER ∉ s)
      ∧ MESSAGE_DELIMITER ∉ (drainAll buf).2 by
    exact fun buf => h buf.length buf (Nat.le_refl _)
  intro n
  induction n with
  | zero =>
    intro buf hlen
    have hbuf : buf = [] := List.eq_nil_of_length_eq_zero (Nat.le_zero.mp hlen)
    subst hbuf
    exact ⟨rfl, by simp [drainAll, drainLoop], by simp [drainAll, drainLoop]⟩
  | succ n ih =>
    intro buf hlen
    rw [drainAll_eq]
    cases hsp : splitAtByte MESSAGE_DELIMITER buf with
    | none =>
      refine ⟨by simp [joinD_nil], by simp, splitAtByte_none hsp⟩
    | some q =>
      obtain ⟨seg, rest⟩ := q
      obtain ⟨hl, hfree⟩ := splitAtByte_some hsp
      have hlen2 := splitAtByte_some_length hsp
      obtain ⟨ih1, ih2, ih3⟩ := ih rest (by omega)
      dsimp only
      refine ⟨?_, ?_, ih3⟩
      · rw [joinD_cons, List.append_assoc, List.cons_append, ih1, hl]
      · intro s hs
        rcases List.mem_cons.mp hs with hs | hs
        · exact hs ▸ hfree
        · exact ih2 s hs

/-- Compositionality of draining: feeding more bytes after a drain is the same
as draining the concatenation. -/
theorem drainAll_append (buf data : List Nat) :
    drainAll (buf ++ data)
      = ((drainAll buf).1 ++ (drainAll ((drainAll buf).2 ++ data)).1,
         (drainAll ((drainAll buf).2 ++ data)).2) := by
  obtain ⟨h1, h2, _⟩ := drainAll_decompose buf
  conv_lhs => rw [← h1]
  rw [List.append_assoc, drainAll_joinD _ h2]

/-! ## Text layer: UTF-8, Python string helpers, numeric literal grammars

`chunk.decode('utf-8')` (strict), `str.strip()`, `str.upper()`, and the
validity parts of `float(...)` / `int(...)`.  `str.upper()` is modelled on the
ASCII range (the Python function also case-maps non-ASCII letters; every
symbol and tag handled by this system is ASCII).  The numeric grammars accept
ASCII digits (Python also accepts other Unicode decimal digits). -/

/-- One multi-byte UTF-8 sequence headed by the non-ASCII lead byte `b1`:
returns the decoded codepoint and the bytes after the sequence, or `none` on
any malformed lead/continuation byte.  The bounds on the first continuation
byte follow CPython's strict decoder: they reject overlong forms, surrogates
(lead `0xED`) and codepoints above U+10FFFF (lead `0xF4`). -/
def utf8Multi (b1 : Nat) (rest : List Nat) : Option (Nat × List Nat) :=
  if 194 ≤ b1 ∧ b1 ≤ 223 then
    match rest with
    | b2 :: rest2 =>
      if 128 ≤ b2 ∧ b2 ≤ 191 then
        some ((b1 - 192) * 64 + (b2 - 128), rest2)
      else none
    | [] => none
  else if 224 ≤ b1 ∧ b1 ≤ 239 then
    match rest with
    | b2 :: b3 :: rest3 =>
      let lo2 := if b1 = 224 then 160 else 128
      let hi2 := if b1 = 237 then 159 else 191
      if (lo2 ≤ b2 ∧ b2 ≤ hi2) ∧ (128 ≤ b3 ∧ b3 ≤ 191) then
        some ((b1 - 224) * 4096 + (b2 - 128) * 64 + (b3 - 128), rest3)
      else none
    | _ => none
  else if 240 ≤ b1 ∧ b1 ≤ 244 then
    match rest with
    | b2 :: b3 :: b4 :: rest4 =>
      let lo2 := if b1 = 240 then 144 else 128
      let hi2 := if b1 = 244 then 143 else 191
      if (lo2 ≤ b2 ∧ b2 ≤ hi2) ∧ (128 ≤ b3 ∧ b3 ≤ 191) ∧ (128 ≤ b4 ∧ b4 ≤ 191) then
        some ((b1 - 240) * 262144 + (b2 - 128) * 4096
              + (b3 - 128) * 64 + (b4 - 128), rest4)
      else none
    | _ => none
  else none

/-- Decoding loop with explicit fuel (each step consumes at least one byte, so
`l.length` steps always suffice). -/
def utf8DecodeLoop : Nat → List Nat → Option (List Nat)
  | _, [] => some []
  | 0, _ :: _ => none
  | fuel + 1, b1 :: rest =>
    if b1 < 128 then
      (utf8DecodeLoop fuel rest).map (fun t => b1 :: t)
    else
      match utf8Multi b1 rest with
      | none => none
      | some (cp, rest2) => (utf8DecodeLoop fuel rest2).map (fun t => cp :: t)

/-- Strict UTF-8 decoding of a byte sequence into codepoints, following
CPython's decoder (`chunk.decode('utf-8')` in orderbook.py line 133 /
strategy.py line 129; raises on failure, modelled as `none`). -/
def utf8Decode (l : List Nat) : Option (List Nat) :=
  utf8DecodeLoop l.length l

/-- UTF-8 encoding of a codepoint sequence (`s.encode('utf-8')`; CPython raises
on surrogates, which cannot arise from the symbol strings this system handles). -/
def utf8Encode (cps : List Nat) : List Nat :=
  cps.flatMap (fun c =>
    if c < 128 then [c]
    else if c < 2048 then [192 + c / 64, 128 + c % 64]
    else if c < 65536 then [224 + c / 4096, 128 + c / 64 % 64, 128 + c % 64]
    else [240 + c / 262144, 128 + c / 4096 % 64, 128 + c / 64 % 64, 128 + c % 64])

theorem utf8Decode_ascii :
    ∀ {l : List Nat}, (∀ c ∈ l, c < 128) → utf8Decode l = some l := by
  intro l
  induction l with
  | nil => intro _; rfl
  | cons b rest ih =>
    intro h
    have hb : b < 128 := h b (by simp)
    have hrest : ∀ c ∈ rest, c < 128 := fun c hc => h c (by simp [hc])
    show utf8DecodeLoop (rest.length + 1) (b :: rest) = some (b :: rest)
    rw [utf8DecodeLoop, if_pos hb]
    rw [show utf8DecodeLoop rest.length rest = utf8Decode rest from rfl, ih hrest]
    rfl

theorem utf8Encode_ascii :
    ∀ {l : List Nat}, (∀ c ∈ l, c < 128) → utf8Encode l = l := by
  intro l
  induction l with
  | nil => intro _; rfl
  | cons b rest ih =>
    intro h
    have hb : b < 128 := h b (by simp)
    have hrest : ∀ c ∈ rest, c < 128 := fun c hc => h c (by simp [hc])
    show (if b < 128 then [b] else _) ++ utf8Encode rest = b :: rest
    rw [if_pos hb, ih hrest]
    rfl

/-- Codepoints treated as whitespace by Python's `str.strip()` / `str.isspace()`
(and by the whitespace tolerance of `float(...)` / `int(...)`). -/
def isPySpace (c : Nat) : Bool :=
  [9, 10, 11, 12, 13, 28, 29, 30, 31, 32, 133, 160, 5760,
   8192, 8193, 8194, 8195, 8196, 8197, 8198, 8199, 8200, 8201, 8202,
   8232, 8233, 8239, 8287, 12288].contains c

/-- Python `str.strip()`: drop leading and trailing whitespace. -/
def pyStrip (l : List Nat) : List Nat :=
  ((l.dropWhile isPySpace).reverse.dropWhile isPySpace).reverse

/-- Python `str.upper()` restricted to ASCII case mapping. -/
def pyUpper (l : List Nat) : List Nat :=
  l.map (fun c => if 97 ≤ c ∧ c ≤ 122 then c - 32 else c)

/-- ASCII lower-casing of one codepoint, for the case-insensitive inf/nan
forms accepted by Python `float(...)`. -/
def asciiLower (c : Nat) : Nat := if 65 ≤ c ∧ c ≤ 90 then c + 32 else c

def isDigit (c : Nat) : Bool := 48 ≤ c && c ≤ 57

/-- Tail of a Python digit run: digits with single underscores allowed only
between digits. -/
def digitsTail : List Nat → Bool
  | [] => true
  | 95 :: c :: rest => isDigit c && digitsTail rest
  | c :: rest => isDigit c && digitsTail rest

/-- A Python `digitpart`: nonempty digit run, underscores only between digits. -/
def isDigitPart : List Nat → Bool
  | [] => false
  | c :: rest => isDigit c && digitsTail rest

/-- Drop one optional leading sign (`+` or `-`). -/
def stripSign : List Nat → List Nat
  | 43 :: r => r
  | 45 :: r => r
  | l => l

/-- The mantissa part of a Python float literal: `digits`, `digits "." digits?`,
or `"." digits`. -/
def isMantissa (l : List Nat) : Bool :=
  match splitAtByte 46 l with
  | none => isDigitPart l
  | some (a, b) =>
    if a.isEmpty then isDigitPart b
    else isDigitPart a && (b.isEmpty || isDigitPart b)

/-- A float literal body after sign removal: `inf`, `infinity`, `nan`
(case-insensitively) or mantissa with optional exponent. -/
def isFloatBody (l : List Nat) : Bool :=
  let low := l.map asciiLower
  low == [105, 110, 102] || low == [105, 110, 102, 105, 110, 105, 116, 121]
    || low == [110, 97, 110]
    || match splitAtP (fun c => c == 101 || c == 69) l with
       | none => isMantissa l
       | some (m, ex) => isMantissa m && isDigitPart (stripSign ex)

/-- Whether Python `float(text)` succeeds (ASCII digits; surrounding whitespace
and one sign allowed). -/
def isValidFloat (l : List Nat) : Bool :=
  isFloatBody (stripSign (pyStrip l))

/-- Whether Python `int(text)` succeeds in base 10 (ASCII digits; surrounding
whitespace and one sign allowed). -/
def isValidInt (l : List Nat) : Bool :=
  isDigitPart (stripSign (pyStrip l))

/-! ## Ticks and the message codec

The wire grammar is `TAG "," VALUE DELIM`.  The gateway encodes with
`f"{sym},{price}".encode('utf-8') + MESSAGE_DELIMITER` (gateway.py lines 110
and 119).  The receive side (orderbook.py lines 130-151 for price messages,
strategy.py lines 126-144 for news messages — both apply the identical
splitting, stripping and upper-casing, then each consumes its own tag class)
decodes one complete segment into a tick or drops it.  A tick carries the
wire text of its value; the numeric interpretation (`float(val)` /
`int(val)`) is validated by the decode path. -/

/-- The codepoints of the literal NEWS tag. -/
def NEWS_TAG : List Nat := [78, 69, 87, 83]

inductive Tick where
  | price (symbol : List Nat) (value : List Nat)
  | news (value : List Nat)
deriving DecidableEq

/-- Decode one complete segment (the bytes strictly between two delimiters):
skip it when empty (orderbook.py line 130), when not valid UTF-8 (line 134),
when it has no comma (line 138), or when the numeric VALUE does not parse
(orderbook.py line 150 for prices, strategy.py line 143 for news). -/
def decodeSeg (chunk : List Nat) : Option Tick :=
  if chunk.isEmpty then none
  else
    match utf8Decode chunk with
    | none => none
    | some txt =>
      match splitAtByte 44 txt with
      | none => none
      | some (tag, val) =>
        let key := pyUpper (pyStrip tag)
        let v := pyStrip val
        if key = NEWS_TAG then
          if isValidInt v then some (Tick.news v) else none
        else
          if isValidFloat v then some (Tick.price key v) else none

/-- The encoded text body of one tick, before the trailing delimiter. -/
def encBody : Tick → List Nat
  | Tick.price s v => utf8Encode (s ++ 44 :: v)
  | Tick.news v => utf8Encode (NEWS_TAG ++ 44 :: v)

/-- Encode one tick for the wire, with the trailing delimiter byte
(gateway.py lines 110 and 119). -/
def encodeTick (t : Tick) : List Nat := encBody t ++ [MESSAGE_DELIMITER]

/-- A symbol codepoint: ASCII digit or uppercase letter. -/
def isSymChar (c : Nat) : Bool := (48 ≤ c && c ≤ 57) || (65 ≤ c && c ≤ 90)

/-- A valid wire value: ASCII, free of the delimiter byte, and fixed by
stripping (no surrounding whitespace). -/
def validValue (v : List Nat) : Bool :=
  v.all (fun c => c < 128) && !(v.contains MESSAGE_DELIMITER) && pyStrip v == v

/-- A valid tick: the symbol is a nonempty ASCII digit/uppercase identifier
other than NEWS, and the value text parses under the numeric parser the
receive side applies to it. -/
def validTick : Tick → Bool
  | Tick.price s v =>
    !s.isEmpty && s.all isSymChar && !(s == NEWS_TAG) && validValue v && isValidFloat v
  | Tick.news v => validValue v && isValidInt v

theorem isSymChar_spec {c : Nat} (h : isSymChar c = true) :
    isPySpace c = false ∧ ¬(97 ≤ c ∧ c ≤ 122) ∧ c < 128
      ∧ c ≠ MESSAGE_DELIMITER ∧ c ≠ 44 := by
  simp only [isSymChar, Bool.or_eq_true, Bool.and_eq_true, decide_eq_true_eq] at h
  refine ⟨?_, by omega, by omega, by simp only [MESSAGE_DELIMITER]; omega, by omega⟩
  rcases h with ⟨h1, h2⟩ | ⟨h1, h2⟩ <;> interval_cases c <;> decide

theorem dropWhile_eq_self {p : Nat → Bool} :
    ∀ {l : List Nat}, (∀ c ∈ l, p c = false) → l.dropWhile p = l := by
  intro l
  induction l with
  | nil => intro _; rfl
  | cons b rest _ =>
    intro h
    rw [List.dropWhile_cons, if_neg]
    simp [h b (by simp)]

theorem pyStrip_id {l : List Nat} (h : ∀ c ∈ l, isPySpace c = false) :
    pyStrip l = l := by
  unfold pyStrip
  rw [dropWhile_eq_self h,
    dropWhile_eq_self (fun c hc => h c (List.mem_reverse.mp hc)),
    List.reverse_reverse]

theorem pyUpper_id {l : List Nat} (h : ∀ c ∈ l, ¬(97 ≤ c ∧ c ≤ 122)) :
    pyUpper l = l := by
  unfold pyUpper
  induction l with
  | nil => rfl
  | cons b rest ih =>
    rw [List.map_cons, if_neg (h b (by simp)), ih (fun c hc => h c (by simp [hc]))]

/-- Decoding inverts encoding on the body of a valid tick. -/
theorem decodeSeg_encBody {t : Tick} (hv : validTick t = true) :
    decodeSeg (encBody t) = some t := by
  cases t with
  | price s v =>
    simp only [validTick, Bool.and_eq_true, Bool.not_eq_eq_eq_not, Bool.not_true,
      List.all_eq_true] at hv
    obtain ⟨⟨⟨⟨hne, hsym⟩, hnews⟩, hval⟩, hfloat⟩ := hv
    have hsym128 : ∀ c ∈ s, c < 128 := fun c hc => (isSymChar_spec (hsym c hc)).2.2.1
    have hval128 : ∀ c ∈ v, c < 128 := by
      simp only [validValue, Bool.and_eq_true, List.all_eq_true, decide_eq_true_eq] at hval
      exact fun c hc => hval.1.1 c hc
    have hstripv : pyStrip v = v := by
      simp only [validValue, Bool.and_eq_true, beq_iff_eq] at hval
      exact hval.2
    have hascii : ∀ c ∈ s ++ 44 :: v, c < 128 := by
      intro c hc
      rcases List.mem_append.mp hc with hc | hc
      · exact hsym128 c hc
      · rcases List.mem_cons.mp hc with hc | hc
        · omega
        · exact hval128 c hc
    have henc : encBody (Tick.price s v) = s ++ 44 :: v := utf8Encode_ascii hascii
    have hnotempty : (s ++ 44 :: v).isEmpty = false := by
      cases s <;> rfl
    have hnocomma : (44 : Nat) ∉ s := fun hc => (isSymChar_spec (hsym 44 hc)).2.2.2.2 rfl
    rw [henc]
    unfold decodeSeg
    rw [hnotempty, utf8Decode_ascii hascii]
    simp only [Bool.false_eq_true, if_false]
    rw [splitAtByte_append hnocomma v]
    have hstrips : pyStrip s = s :=
      pyStrip_id (fun c hc => (isSymChar_spec (hsym c hc)).1)
    have huppers : pyUpper s = s :=
      pyUpper_id (fun c hc => (isSymChar_spec (hsym c hc)).2.1)
    simp only [hstrips, huppers, hstripv]
    rw [if_neg (by simpa using hnews), if_pos hfloat]
  | news v =>
    simp only [validTick, Bool.and_eq_true] at hv
    obtain ⟨hval, hint⟩ := hv
    have hval128 : ∀ c ∈ v, c < 128 := by
      simp only [validValue, Bool.and_eq_true, List.all_eq_true, decide_eq_true_eq] at hval
      exact fun c hc => hval.1.1 c hc
    have hstripv : pyStrip v = v := by
      simp only [validValue, Bool.and_eq_true, beq_iff_eq] at hval
      exact hval.2
    have hascii : ∀ c ∈ NEWS_TAG ++ 44 :: v, c < 128 := by
      intro c hc
      rcases List.mem_append.mp hc with hc | hc
      · simp only [NEWS_TAG, List.mem_cons, List.not_mem_nil, or_false] at hc
        rcases hc with rfl | rfl | rfl | rfl <;> norm_num
      · rcases List.mem_cons.mp hc with hc | hc
        · omega
        · exact hval128 c hc
    have henc : encBody (Tick.news v) = NEWS_TAG ++ 44 :: v := utf8Encode_ascii hascii
    have hnocomma : (44 : Nat) ∉ NEWS_TAG := by decide
    rw [henc]
    unfold decodeSeg
    rw [show (NEWS_TAG ++ 44 :: v).isEmpty = false from rfl, utf8Decode_ascii hascii]
    simp only [Bool.false_eq_true, if_false]
    rw [splitAtByte_append hnocomma v]
    simp only [hstripv]
    rw [if_pos (by decide : pyUpper (pyStrip NEWS_TAG) = NEWS_TAG), if_pos hint]

/-! ## The stateful receive process

The receive loop keeps a private buffer, appends every received chunk
(`buffer += data`), and drains all complete segments after each append,
decoding each drained segment in order (orderbook.py lines 117-156,
strategy.py lines 114-145). -/

/-- Drain a whole buffer at once: the ticks decoded from its complete
segments, and the remaining partial payload. -/
def processAll (buf : List Nat) : List Tick × List Nat :=
  ((drainAll buf).1.filterMap decodeSeg, (drainAll buf).2)

/-- Feed the chunks one at a time, draining after each feed; returns all ticks
yielded, in order, and the final buffer contents. -/
def processChunks : List Nat → List (List Nat) → List Tick × List Nat
  | buffer, [] => ([], buffer)
  | buffer, c :: cs =>
    let p := drainAll (buffer ++ c)
    let q := processChunks p.2 cs
    (p.1.filterMap decodeSeg ++ q.1, q.2)

/-- Chunk boundaries are invisible: feeding chunk by chunk from a
delimiter-free starting buffer equals draining the whole concatenation. -/
theorem processChunks_flatten :
    ∀ (cs : List (List Nat)) (buf : List Nat), MESSAGE_DELIMITER ∉ buf →
      processChunks buf cs = processAll (buf ++ cs.flatten) := by
  intro cs
  induction cs with
  | nil =>
    intro buf hb
    simp only [processChunks, List.flatten_nil, List.append_nil, processAll,
      drainAll_no_delim hb, List.filterMap_nil]
  | cons c cs ih =>
    intro buf hb
    obtain ⟨_, _, hfree⟩ := drainAll_decompose (buf ++ c)
    simp only [processChunks, ih _ hfree, processAll, List.flatten_cons,
      ← List.append_assoc, drainAll_append (buf ++ c) cs.flatten,
      List.filterMap_append]

/-- The encoded body of a valid tick never contains the delimiter byte. -/
theorem encBody_delim_free {t : Tick} (hv : validTick t = true) :
    MESSAGE_DELIMITER ∉ encBody t := by
  cases t with
  | price s v =>
    simp only [validTick, Bool.and_eq_true, List.all_eq_true] at hv
    obtain ⟨⟨⟨⟨_, hsym⟩, _⟩, hval⟩, _⟩ := hv
    have hsym128 : ∀ c ∈ s, c < 128 := fun c hc => (isSymChar_spec (hsym c hc)).2.2.1
    have hval128 : ∀ c ∈ v, c < 128 := by
      simp only [validValue, Bool.and_eq_true, List.all_eq_true, decide_eq_true_eq] at hval
      exact fun c hc => hval.1.1 c hc
    have hvd : MESSAGE_DELIMITER ∉ v := by
      simp only [validValue, Bool.and_eq_true, Bool.not_eq_eq_eq_not, Bool.not_true] at hval
      simpa using hval.1.2
    have hascii : ∀ c ∈ s ++ 44 :: v, c < 128 := by
      intro c hc
      rcases List.mem_append.mp hc with hc | hc
      · exact hsym128 c hc
      · rcases List.mem_cons.mp hc with hc | hc
        · omega
        · exact hval128 c hc
    rw [show encBody (Tick.price s v) = s ++ 44 :: v from utf8Encode_ascii hascii]
    intro hmem
    rcases List.mem_append.mp hmem with hmem | hmem
    · exact (isSymChar_spec (hsym _ hmem)).2.2.2.1 rfl
    · rcases List.mem_cons.mp hmem with hmem | hmem
      · exact absurd hmem.symm (by simp [MESSAGE_DELIMITER])
      · exact hvd hmem
  | news v =>
    simp only [validTick, Bool.and_eq_true] at hv
    obtain ⟨hval, _⟩ := hv
    have hval128 : ∀ c ∈ v, c < 128 := by
      simp only [validValue, Bool.and_eq_true, List.all_eq_true, decide_eq_true_eq] at hval
      exact fun c hc => hval.1.1 c hc
    have hvd : MESSAGE_DELIMITER ∉ v := by
      simp only [validValue, Bool.and_eq_true, Bool.not_eq_eq_eq_not, Bool.not_true] at hval
      simpa using hval.1.2
    have hascii : ∀ c ∈ NEWS_TAG ++ 44 :: v, c < 128 := by
      intro c hc
      rcases List.mem_append.mp hc with hc | hc
      · simp only [NEWS_TAG, List.mem_cons, List.not_mem_nil, or_false] at hc
        rcases hc with rfl | rfl | rfl | rfl <;> norm_num
      · rcases List.mem_cons.mp hc with hc | hc
        · omega
        · exact hval128 c hc
    rw [show encBody (Tick.news v) = NEWS_TAG ++ 44 :: v from utf8Encode_ascii hascii]
    intro hmem
    rcases List.mem_append.mp hmem with hmem | hmem
    · revert hmem; decide
    · rcases List.mem_cons.mp hmem with hmem | hmem
      · exact absurd hmem.symm (by simp [MESSAGE_DELIMITER])
      · exact hvd hmem

/-- The full encoding of a tick list is its bodies joined by delimiters. -/
theorem encode_flatten_joinD (ticks : List Tick) :
    (ticks.map encodeTick).flatten = joinD (ticks.map encBody) := by
  simp only [joinD, List.map_map]
  rfl

theorem filterMap_decode_encBody :
    ∀ {ticks : List Tick}, (∀ t ∈ ticks, validTick t = true) →
      (ticks.map encBody).filterMap decodeSeg = ticks := by
  intro ticks
  induction ticks with
  | nil => intro _; rfl
  | cons t ts ih =>
    intro h
    rw [List.map_cons, List.filterMap_cons,
      decodeSeg_encBody (h t (by simp)), ih (fun x hx => h x (by simp [hx]))]

/-- Claim C1: codec round-trip.  Chunk boundaries are invisible to the
receive-side parser (feeding any two chunkings of the same byte stream and
draining after each feed yields the same ticks and the same final buffer — in
particular a message whose delimiter byte has not yet been fed is never
yielded, and a delimiter on a chunk boundary loses and duplicates nothing);
and for every sequence of valid ticks, feeding any chunking of their encoded
concatenation yields exactly the original tick sequence with an empty final
buffer. -/
theorem codec_roundtrip :
    (∀ cs1 cs2 : List (List Nat), cs1.flatten = cs2.flatten →
        processChunks [] cs1 = processChunks [] cs2)
    ∧ ∀ (ticks : List Tick), (∀ t ∈ ticks, validTick t = true) →
        ∀ (cs : List (List Nat)), cs.flatten = (ticks.map encodeTick).flatten →
          processChunks [] cs = (ticks, []) := by
  constructor
  · intro cs1 cs2 h
    rw [processChunks_flatten cs1 [] (by simp),
      processChunks_flatten cs2 [] (by simp), List.nil_append, List.nil_append, h]
  · intro ticks hv cs hcs
    rw [processChunks_flatten cs [] (by simp), List.nil_append, hcs,
      encode_flatten_joinD]
    have hfree : ∀ s ∈ ticks.map encBody, MESSAGE_DELIMITER ∉ s := by
      intro s hs
      obtain ⟨t, ht, rfl⟩ := List.mem_map.mp hs
      exact encBody_delim_free (hv t ht)
    have hdrain : drainAll (joinD (ticks.map encBody)) = (ticks.map encBody, []) := by
      have h2 := drainAll_joinD (ticks.map encBody) hfree []
      rw [show drainAll ([] : List Nat) = ([], []) from rfl] at h2
      simpa using h2
    unfold processAll
    rw [hdrain, filterMap_decode_encBody hv]

/-- Witness for C1: the stream `A,1.5*NEWS,80*` fed in four chunks, cutting
inside the number and between the delimiter and the next tag. -/
theorem codec_roundtrip_witness :
    processChunks [] [[65, 44, 49, 46], [53], [42, 78, 69], [87, 83, 44, 56, 48, 42]]
      = ([Tick.price [65] [49, 46, 53], Tick.news [56, 48]], []) :=
  codec_roundtrip.2 [Tick.price [65] [49, 46, 53], Tick.news [56, 48]]
    (by decide) [[65, 44, 49, 46], [53], [42, 78, 69], [87, 83, 44, 56, 48, 42]]
    (by decide)

/-- A complete segment that the receive side drops: empty (two consecutive
delimiters), not valid UTF-8, lacking a comma, or with a VALUE its tag's
numeric parser rejects. -/
def segMalformed (chunk : List Nat) : Bool :=
  chunk.isEmpty ||
    match utf8Decode chunk with
    | none => true
    | some txt =>
      match splitAtByte 44 txt with
      | none => true
      | some (tag, val) =>
        if pyUpper (pyStrip tag) = NEWS_TAG then !(isValidInt (pyStrip val))
        else !(isValidFloat (pyStrip val))

theorem decodeSeg_malformed {chunk : List Nat} (h : segMalformed chunk = true) :
    decodeSeg chunk = none := by
  unfold segMalformed at h
  unfold decodeSeg
  cases he : chunk.isEmpty with
  | true => simp only [he, if_true]
  | false =>
    rw [he] at h
    simp only [Bool.false_or] at h
    simp only [he, Bool.false_eq_true, if_false]
    cases hd : utf8Decode chunk with
    | none => rfl
    | some txt =>
      rw [hd] at h
      dsimp only at h ⊢
      cases hsp : splitAtByte 44 txt with
      | none => rfl
      | some q =>
        obtain ⟨tag, val⟩ := q
        rw [hsp] at h
        dsimp only at h ⊢
        by_cases hk : pyUpper (pyStrip tag) = NEWS_TAG
        · rw [if_pos hk] at h ⊢
          rw [if_neg]
          simpa using h
        · rw [if_neg hk] at h ⊢
          rw [if_neg]
          simpa using h

/-- Claim C7: codec edge cases.  In any buffer consisting of complete
segments around one skipped segment (empty, invalid UTF-8, comma-less, or
with an unparsable numeric VALUE) plus a trailing partial payload, draining
drops only that segment: every other complete message is delivered unchanged
and the trailing payload stays buffered. -/
theorem codec_edge_cases :
    ∀ (pre post : List (List Nat)) (bad rest : List Nat),
      (∀ s ∈ pre, MESSAGE_DELIMITER ∉ s) → (∀ s ∈ post, MESSAGE_DELIMITER ∉ s) →
      MESSAGE_DELIMITER ∉ bad → MESSAGE_DELIMITER ∉ rest →
      segMalformed bad = true →
      processAll (joinD (pre ++ bad :: post) ++ rest)
        = (pre.filterMap decodeSeg ++ post.filterMap decodeSeg, rest) := by
  intro pre post bad rest hpre hpost hbad hrest hmal
  have hfree : ∀ s ∈ pre ++ bad :: post, MESSAGE_DELIMITER ∉ s := by
    intro s hs
    rcases List.mem_append.mp hs with hs | hs
    · exact hpre s hs
    · rcases List.mem_cons.mp hs with rfl | hs
      · exact hbad
      · exact hpost s hs
  unfold processAll
  rw [drainAll_joinD _ hfree rest, drainAll_no_delim hrest]
  simp only [List.append_nil, List.filterMap_append, List.filterMap_cons,
    decodeSeg_malformed hmal]

/-- Witness for C7: the stream `A,1*<0xFF>*NEWS,50*BB` — the `0xFF` segment is
not valid UTF-8 and is dropped; the price before it, the news after it and
the buffered partial `BB` survive. -/
theorem codec_edge_cases_witness :
    processAll (joinD ([[65, 44, 49]] ++ [255] :: [[78, 69, 87, 83, 44, 53, 48]])
        ++ [66, 66])
      = ([Tick.price [65] [49], Tick.news [53, 48]], [66, 66]) :=
  codec_edge_cases [[65, 44, 49]] [[78, 69, 87, 83, 44, 53, 48]] [255] [66, 66]
    (by decide) (by decide) (by decide) (by decide) (by decide)

/-! ## The shared price table

A table record is the stored 12-byte symbol field (NUL-padded, as a byte
list) and the price.  `SharedPriceBook.update`/`read`
(shared_memory_utils.py lines 36-64) and `OrderBook._update_price`
(orderbook.py lines 92-105) scan the records linearly and compare the stored
bytes, with trailing NULs stripped, against the key computed from the
argument symbol. -/

/-- Python `bytes.rstrip(b'\x00')`: drop trailing NUL bytes. -/
def rstripNul (l : List Nat) : List Nat :=
  (l.reverse.dropWhile (fun c => c == 0)).reverse

/-- The lookup key `SharedPriceBook` computes (shared_memory_utils.py lines
40 and 58): `symbol.upper().encode('utf-8')[:12]`. -/
def symKey (symbol : List Nat) : List Nat :=
  (utf8Encode (pyUpper symbol)).take 12

/-- The key `OrderBook._update_price` computes (orderbook.py line 97):
`symbol.encode('utf-8')[:12]`, with no upper-casing — its caller passes the
already upper-cased tag (orderbook.py line 140). -/
def obKey (symbol : List Nat) : List Nat :=
  (utf8Encode symbol).take 12

/-- A price table: the ordered fixed records of the shared segment. -/
def PriceTable : Type := List (List Nat × ℚ)

/-- The scan of `SharedPriceBook.update` (shared_memory_utils.py lines 41-45):
overwrite the price of the first record whose stripped stored symbol equals
the key and return `True`; fall off the end otherwise — the source has no
return statement on that path, so the call returns `None`. -/
def spbUpdateGo (key : List Nat) (price : ℚ) : List (List Nat × ℚ) →
    Option Bool × List (List Nat × ℚ)
  | [] => (none, [])
  | (s, p) :: rest =>
    if rstripNul s = key then (some true, (s, price) :: rest)
    else
      let r := spbUpdateGo key price rest
      (r.1, (s, p) :: r.2)

/-- `SharedPriceBook.update(symbol, price)` under the exclusive lock. -/
def spbUpdate (tbl : List (List Nat × ℚ)) (symbol : List Nat) (price : ℚ) :
    Option Bool × List (List Nat × ℚ) :=
  spbUpdateGo (symKey symbol) price tbl

/-- The scan of `SharedPriceBook.read` (shared_memory_utils.py lines 57-62):
return the first matching price, `None` when absent. -/
def spbReadGo (key : List Nat) : List (List Nat × ℚ) → Option ℚ
  | [] => none
  | (s, p) :: rest => if rstripNul s = key then some p else spbReadGo key rest

/-- `SharedPriceBook.read(symbol)` under the shared lock. -/
def spbRead (tbl : List (List Nat × ℚ)) (symbol : List Nat) : Option ℚ :=
  spbReadGo (symKey symbol) tbl

/-- The scan of `OrderBook._update_price` (orderbook.py lines 95-105):
identical shape, but reports `False` (not `None`) when the symbol is absent. -/
def obUpdateGo (key : List Nat) (price : ℚ) : List (List Nat × ℚ) →
    Bool × List (List Nat × ℚ)
  | [] => (false, [])
  | (s, p) :: rest =>
    if rstripNul s = key then (true, (s, price) :: rest)
    else
      let r := obUpdateGo key price rest
      (r.1, (s, p) :: r.2)

/-- `OrderBook._update_price(symbol, price)` under the file lock. -/
def obUpdatePrice (tbl : List (List Nat × ℚ)) (symbol : List Nat) (price : ℚ) :
    Bool × List (List Nat × ℚ) :=
  obUpdateGo (obKey symbol) price tbl

theorem spbUpdateGo_fst_map (key : List Nat) (price : ℚ) :
    ∀ (tbl : List (List Nat × ℚ)),
      (spbUpdateGo key price tbl).2.map Prod.fst = tbl.map Prod.fst := by
  intro tbl
  induction tbl with
  | nil => rfl
  | cons r rest ih =>
    obtain ⟨s, p⟩ := r
    by_cases hk : rstripNul s = key
    · simp [spbUpdateGo, hk]
    · simp [spbUpdateGo, hk, ih]

theorem obUpdateGo_fst_map (key : List Nat) (price : ℚ) :
    ∀ (tbl : List (List Nat × ℚ)),
      (obUpdateGo key price tbl).2.map Prod.fst = tbl.map Prod.fst := by
  intro tbl
  induction tbl with
  | nil => rfl
  | cons r rest ih =>
    obtain ⟨s, p⟩ := r
    by_cases hk : rstripNul s = key
    · simp [obUpdateGo, hk]
    · simp [obUpdateGo, hk, ih]

theorem spbUpdateGo_found (key : List Nat) (price : ℚ) :
    ∀ (a : List (List Nat × ℚ)) (s : List Nat) (p : ℚ) (b : List (List Nat × ℚ)),
      (∀ r ∈ a, rstripNul r.1 ≠ key) → rstripNul s = key →
      spbUpdateGo key price (a ++ (s, p) :: b) = (some true, a ++ (s, price) :: b) := by
  intro a
  induction a with
  | nil =>
    intro s p b _ hs
    simp [spbUpdateGo, hs]
  | cons r rest ih =>
    intro s p b ha hs
    obtain ⟨s0, p0⟩ := r
    have h0 : rstripNul s0 ≠ key := ha (s0, p0) (by simp)
    simp only [List.cons_append, spbUpdateGo, if_neg h0]
    rw [List.append_eq, ih s p b (fun x hx => ha x (by simp [hx])) hs]

theorem obUpdateGo_found (key : List Nat) (price : ℚ) :
    ∀ (a : List (List Nat × ℚ)) (s : List Nat) (p : ℚ) (b : List (List Nat × ℚ)),
      (∀ r ∈ a, rstripNul r.1 ≠ key) → rstripNul s = key →
      obUpdateGo key price (a ++ (s, p) :: b) = (true, a ++ (s, price) :: b) := by
  intro a
  induction a with
  | nil =>
    intro s p b _ hs
    simp [obUpdateGo, hs]
  | cons r rest ih =>
    intro s p b ha hs
    obtain ⟨s0, p0⟩ := r
    have h0 : rstripNul s0 ≠ key := ha (s0, p0) (by simp)
    simp only [List.cons_append, obUpdateGo, if_neg h0]
    rw [List.append_eq, ih s p b (fun x hx => ha x (by simp [hx])) hs]

theorem spbUpdateGo_notfound (key : List Nat) (price : ℚ) :
    ∀ (tbl : List (List Nat × ℚ)), (∀ r ∈ tbl, rstripNul r.1 ≠ key) →
      spbUpdateGo key price tbl = (none, tbl) := by
  intro tbl
  induction tbl with
  | nil => intro _; rfl
  | cons r rest ih =>
    intro h
    obtain ⟨s, p⟩ := r
    have h0 : rstripNul s ≠ key := h (s, p) (by simp)
    simp only [spbUpdateGo, if_neg h0, ih (fun x hx => h x (by simp [hx]))]

theorem obUpdateGo_notfound (key : List Nat) (price : ℚ) :
    ∀ (tbl : List (List Nat × ℚ)), (∀ r ∈ tbl, rstripNul r.1 ≠ key) →
      obUpdateGo key price tbl = (false, tbl) := by
  intro tbl
  induction tbl with
  | nil => intro _; rfl
  | cons r rest ih =>
    intro h
    obtain ⟨s, p⟩ := r
    have h0 : rstripNul s ≠ key := h (s, p) (by simp)
    simp only [obUpdateGo, if_neg h0, ih (fun x hx => h x (by simp [hx]))]

/-- Claim C2: update frame conditions, for both table writers.  Unconditionally
no record is added or removed (the stored symbol column and the length are
preserved); when a record matches, the first match has its price overwritten,
all other records stay intact, and the call reports success (`True`); when no
record matches, the table is returned exactly unchanged and the call reports
the symbol unknown (`None` from `SharedPriceBook.update`, `False` from
`OrderBook._update_price`). -/
theorem table_update_frame :
    ∀ (tbl : List (List Nat × ℚ)) (symbol : List Nat) (price : ℚ),
      ((spbUpdate tbl symbol price).2.map Prod.fst = tbl.map Prod.fst
        ∧ (spbUpdate tbl symbol price).2.length = tbl.length
        ∧ (obUpdatePrice tbl symbol price).2.map Prod.fst = tbl.map Prod.fst
        ∧ (obUpdatePrice tbl symbol price).2.length = tbl.length)
      ∧ (∀ (a : List (List Nat × ℚ)) (s : List Nat) (p : ℚ) (b : List (List Nat × ℚ)),
          tbl = a ++ (s, p) :: b →
          (∀ r ∈ a, rstripNul r.1 ≠ symKey symbol) → rstripNul s = symKey symbol →
          spbUpdate tbl symbol price = (some true, a ++ (s, price) :: b))
      ∧ ((∀ r ∈ tbl, rstripNul r.1 ≠ symKey symbol) →
          spbUpdate tbl symbol price = (none, tbl))
      ∧ (∀ (a : List (List Nat × ℚ)) (s : List Nat) (p : ℚ) (b : List (List Nat × ℚ)),
          tbl = a ++ (s, p) :: b →
          (∀ r ∈ a, rstripNul r.1 ≠ obKey symbol) → rstripNul s = obKey symbol →
          obUpdatePrice tbl symbol price = (true, a ++ (s, price) :: b))
      ∧ ((∀ r ∈ tbl, rstripNul r.1 ≠ obKey symbol) →
          obUpdatePrice tbl symbol price = (false, tbl)) := by
  intro tbl symbol price
  refine ⟨⟨spbUpdateGo_fst_map .., ?_, obUpdateGo_fst_map .., ?_⟩, ?_, ?_, ?_, ?_⟩
  · have h := congrArg List.length (spbUpdateGo_fst_map (symKey symbol) price tbl)
    simpa using h
  · have h := congrArg List.length (obUpdateGo_fst_map (obKey symbol) price tbl)
    simpa using h
  · intro a s p b htbl ha hs
    rw [htbl]
    exact spbUpdateGo_found (symKey symbol) price a s p b ha hs
  · intro h
    exact spbUpdateGo_notfound (symKey symbol) price tbl h
  · intro a s p b htbl ha hs
    rw [htbl]
    exact obUpdateGo_found (obKey symbol) price a s p b ha hs
  · intro h
    exact obUpdateGo_notfound (obKey symbol) price tbl h

/-- Witness for C2: a one-record table stored as `A` padded to 12 NUL bytes;
updating symbol `a` (lower case) overwrites that record's price and reports
`True`, leaving the stored symbol intact. -/
theorem table_update_frame_witness :
    spbUpdate [([65, 0, 0, 0, 0, 0, 0, 0, 0, 0, 0, 0], 2)] [97] 3
      = (some true, [([65, 0, 0, 0, 0, 0, 0, 0, 0, 0, 0, 0], 3)]) :=
  (table_update_frame [([65, 0, 0, 0, 0, 0, 0, 0, 0, 0, 0, 0], 2)] [97] 3).2.1
    [] [65, 0, 0, 0, 0, 0, 0, 0, 0, 0, 0, 0] 2 [] rfl
    (by intro r hr; cases hr) (by decide)

/-- ASCII upper-casing is idempotent. -/
theorem pyUpper_idem (l : List Nat) : pyUpper (pyUpper l) = pyUpper l := by
  induction l with
  | nil => rfl
  | cons c rest ih =>
    show (if 97 ≤ (if 97 ≤ c ∧ c ≤ 122 then c - 32 else c)
            ∧ (if 97 ≤ c ∧ c ≤ 122 then c - 32 else c) ≤ 122
          then (if 97 ≤ c ∧ c ≤ 122 then c - 32 else c) - 32
          else (if 97 ≤ c ∧ c ≤ 122 then c - 32 else c)) :: pyUpper (pyUpper rest)
        = (if 97 ≤ c ∧ c ≤ 122 then c - 32 else c) :: pyUpper rest
    rw [ih]
    by_cases h : 97 ≤ c ∧ c ≤ 122
    · rw [if_pos h, if_neg (by omega)]
    · rw [if_neg h, if_neg h]

/-- Claim C10: symbol matching in `SharedPriceBook`.  Both `update` and
`read` address records through the key `symbol.upper().encode('utf-8')[:12]`
compared against the stored bytes with trailing NULs stripped; hence both
operations are case-insensitive in the symbol argument, and any two symbols
whose upper-cased encodings share their first 12 bytes address the same
(first matching) record in every table. -/
theorem spb_symbol_matching :
    (∀ symbol : List Nat, symKey symbol = (utf8Encode (pyUpper symbol)).take 12)
    ∧ (∀ symbol : List Nat, symKey (pyUpper symbol) = symKey symbol)
    ∧ ∀ (s t : List Nat), symKey s = symKey t →
        ∀ (tbl : List (List Nat × ℚ)) (price : ℚ),
          spbRead tbl s = spbRead tbl t
          ∧ spbUpdate tbl s price = spbUpdate tbl t price := by
  refine ⟨fun _ => rfl, ?_, ?_⟩
  · intro symbol
    unfold symKey
    rw [pyUpper_idem]
  · intro s t h tbl price
    unfold spbRead spbUpdate
    rw [h]
    exact ⟨rfl, rfl⟩

/-- Witness for C10: `a` and `A` read and update the same record. -/
theorem spb_symbol_matching_witness :
    spbRead [([65, 0, 0, 0, 0, 0, 0, 0, 0, 0, 0, 0], 2)] [97]
      = spbRead [([65, 0, 0, 0, 0, 0, 0, 0, 0, 0, 0, 0], 2)] [65]
    ∧ spbUpdate [([65, 0, 0, 0, 0, 0, 0, 0, 0, 0, 0, 0], 2)] [97] 3
      = spbUpdate [([65, 0, 0, 0, 0, 0, 0, 0, 0, 0, 0, 0], 2)] [65] 3 :=
  spb_symbol_matching.2.2 [97] [65] (by decide)
    [([65, 0, 0, 0, 0, 0, 0, 0, 0, 0, 0, 0], 2)] 3

/-! ## Broadcaster price generation and cadence

`GatewayServer._broadcast_loop` (gateway.py lines 90-128): each cycle draws
one gaussian per symbol, recomputes that symbol's price as
`round(max(price * (1 + change_pct), 0.01), 2)`, and finally sleeps
`max(0.0, BROADCAST_INTERVAL - elapsed)`.  Python's `round` ties to even;
the model rounds the exact rational value (the claims under test are about
the symbolic formula, not float representation error). -/

def BROADCAST_INTERVAL : ℚ := 1

def NEWS_INTERVAL : ℚ := 5

/-- The σ of the per-tick gaussian relative change (gateway.py line 98). -/
def GAUSS_SIGMA : ℚ := 15 / 10000

/-- The minimum positive price (gateway.py line 101). -/
def PRICE_FLOOR : ℚ := 1 / 100

/-- Round to the nearest integer, ties to even (Python `round`). -/
def roundHalfEven (q : ℚ) : ℤ :=
  if q - (⌊q⌋ : ℚ) < 1 / 2 then ⌊q⌋
  else if (1 : ℚ) / 2 < q - (⌊q⌋ : ℚ) then ⌊q⌋ + 1
  else if ⌊q⌋ % 2 = 0 then ⌊q⌋ else ⌊q⌋ + 1

/-- Python `round(x, 2)`: two-decimal rounding, ties to even. -/
def round2 (q : ℚ) : ℚ := (roundHalfEven (q * 100) : ℚ) / 100

/-- One price step of the broadcaster (gateway.py lines 98-101). -/
def gwNewPrice (price g : ℚ) : ℚ := round2 (max (price * (1 + g)) PRICE_FLOOR)

/-- One emission cycle over the price table (gateway.py lines 96-102): the
i-th gaussian draw is applied to the i-th symbol's price. -/
def gwCycle (prices : List (List Nat × ℚ)) (gs : List ℚ) : List (List Nat × ℚ) :=
  List.zipWith (fun r g => (r.1, gwNewPrice r.2 g)) prices gs

/-- End-of-cycle sleep (gateway.py lines 126-128). -/
def gwToSleep (elapsed : ℚ) : ℚ := max 0 (BROADCAST_INTERVAL - elapsed)

/-- Claim C9: broadcaster emission cycle.  Every symbol's new price is
exactly `round(max(old * (1 + g), floor), 2)` for its own gaussian draw `g`,
with the configured floor; and the end-of-cycle sleep is exactly
`max(0, interval - elapsed)`. -/
theorem broadcaster_cycle :
    (∀ (prices : List (List Nat × ℚ)) (gs : List ℚ) (i : Nat)
        (r : List Nat × ℚ) (g : ℚ),
        prices[i]? = some r → gs[i]? = some g →
        (gwCycle prices gs)[i]?
          = some (r.1, round2 (max (r.2 * (1 + g)) PRICE_FLOOR)))
    ∧ ∀ elapsed : ℚ, gwToSleep elapsed = max 0 (BROADCAST_INTERVAL - elapsed) := by
  constructor
  · intro prices
    induction prices with
    | nil => intro gs i r g hr; cases hr
    | cons p ps ih =>
      intro gs i r g hr hg
      cases gs with
      | nil => cases hg
      | cons g0 gtail =>
        cases i with
        | zero =>
          rw [List.getElem?_cons_zero] at hr hg
          obtain rfl := Option.some.inj hr
          obtain rfl := Option.some.inj hg
          simp [gwCycle, List.zipWith_cons_cons, List.getElem?_cons_zero, gwNewPrice]
        | succ j =>
          simpa [gwCycle] using ih gtail j r g (by simpa using hr) (by simpa using hg)
  · intro elapsed
    rfl

/-- Witness for C9: one symbol at price 2 with a draw of 1 moves to
`round2 (max (2 * 2) 0.01) = 4`, and a cycle that took a quarter interval
sleeps three quarters. -/
theorem broadcaster_cycle_witness :
    (gwCycle [([65], 2)] [1])[0]? = some ([65], round2 (max (2 * (1 + 1)) PRICE_FLOOR))
    ∧ gwToSleep (1 / 4) = max 0 (BROADCAST_INTERVAL - 1 / 4) :=
  ⟨broadcaster_cycle.1 [([65], 2)] [1] 0 ([65], 2) 1 rfl rfl,
   broadcaster_cycle.2 (1 / 4)⟩

/-! ## The price invariant (spec data model §3) versus the table writers -/

/-- The invariant the spec claims of every stored price: at least the
positive floor, and equal to its own two-decimal rounding. -/
def priceInv (p : ℚ) : Prop := PRICE_FLOOR ≤ p ∧ round2 p = p

/-- The invariant over a whole table. -/
def tableInv (tbl : List (List Nat × ℚ)) : Prop := ∀ r ∈ tbl, priceInv r.2

instance (p : ℚ) : Decidable (priceInv p) := by
  unfold priceInv
  infer_instance

instance (tbl : List (List Nat × ℚ)) : Decidable (tableInv tbl) := by
  unfold tableInv
  exact List.decidableBAll _ tbl

theorem roundHalfEven_intCast (n : ℤ) : roundHalfEven (n : ℚ) = n := by
  unfold roundHalfEven
  rw [Int.floor_intCast, if_pos (by norm_num)]

theorem le_roundHalfEven {q : ℚ} (h : 1 ≤ q) : 1 ≤ roundHalfEven q := by
  have hf : 1 ≤ ⌊q⌋ := Int.le_floor.mpr (by exact_mod_cast h)
  unfold roundHalfEven
  split_ifs <;> omega

theorem round2_round2 (q : ℚ) : round2 (round2 q) = round2 q := by
  unfold round2
  rw [div_mul_cancel₀ ((roundHalfEven (q * 100) : ℚ)) (by norm_num : (100 : ℚ) ≠ 0),
    roundHalfEven_intCast]

theorem round2_floor {q : ℚ} (h : PRICE_FLOOR ≤ q) : PRICE_FLOOR ≤ round2 q := by
  have h1 : (1 : ℚ) ≤ q * 100 := by
    have := mul_le_mul_of_nonneg_right h (by norm_num : (0 : ℚ) ≤ 100)
    simpa [PRICE_FLOOR] using this
  have h2 : (1 : ℚ) ≤ (roundHalfEven (q * 100) : ℚ) := by
    exact_mod_cast le_roundHalfEven h1
  unfold round2 PRICE_FLOOR
  rw [div_le_div_iff (by norm_num) (by norm_num)]
  linarith

/-- Every broadcaster-generated price satisfies the invariant. -/
theorem gwNewPrice_inv (price g : ℚ) : priceInv (gwNewPrice price g) := by
  unfold gwNewPrice priceInv
  constructor
  · exact round2_floor (le_max_right _ _)
  · exact round2_round2 _

theorem spbUpdateGo_mem (key : List Nat) (price : ℚ) :
    ∀ (tbl : List (List Nat × ℚ)) (r : List Nat × ℚ),
      r ∈ (spbUpdateGo key price tbl).2 → r ∈ tbl ∨ r.2 = price := by
  intro tbl
  induction tbl with
  | nil => intro r hr; exact Or.inl hr
  | cons x rest ih =>
    intro r hr
    obtain ⟨s, p⟩ := x
    by_cases hk : rstripNul s = key
    · simp only [spbUpdateGo, if_pos hk] at hr
      rcases List.mem_cons.mp hr with rfl | hr
      · exact Or.inr rfl
      · exact Or.inl (by simp [hr])
    · simp only [spbUpdateGo, if_neg hk] at hr
      rcases List.mem_cons.mp hr with rfl | hr
      · exact Or.inl (by simp)
      · rcases ih r hr with hin | hp
        · exact Or.inl (by simp [hin])
        · exact Or.inr hp

theorem obUpdateGo_mem (key : List Nat) (price : ℚ) :
    ∀ (tbl : List (List Nat × ℚ)) (r : List Nat × ℚ),
      r ∈ (obUpdateGo key price tbl).2 → r ∈ tbl ∨ r.2 = price := by
  intro tbl
  induction tbl with
  | nil => intro r hr; exact Or.inl hr
  | cons x rest ih =>
    intro r hr
    obtain ⟨s, p⟩ := x
    by_cases hk : rstripNul s = key
    · simp only [obUpdateGo, if_pos hk] at hr
      rcases List.mem_cons.mp hr with rfl | hr
      · exact Or.inr rfl
      · exact Or.inl (by simp [hr])
    · simp only [obUpdateGo, if_neg hk] at hr
      rcases List.mem_cons.mp hr with rfl | hr
      · exact Or.inl (by simp)
      · rcases ih r hr with hin | hp
        · exact Or.inl (by simp [hin])
        · exact Or.inr hp

theorem round2_intDiv (n : ℤ) : round2 ((n : ℚ) / 100) = (n : ℚ) / 100 := by
  unfold round2
  rw [div_mul_cancel₀ ((n : ℚ)) (by norm_num : (100 : ℚ) ≠ 0), roundHalfEven_intCast]

/-- Any integer number of cents at least one cent satisfies the invariant. -/
theorem priceInv_cents (n : ℤ) (h : 1 ≤ n) : priceInv ((n : ℚ) / 100) := by
  constructor
  · unfold PRICE_FLOOR
    rw [div_le_div_iff (by norm_num) (by norm_num)]
    have : (1 : ℚ) ≤ (n : ℚ) := by exact_mod_cast h
    linarith
  · exact round2_intDiv n

/-- Counterexample to claim C3 as stated: a table satisfying the invariant,
updated through `SharedPriceBook.update` with price −1, stores −1 verbatim —
the update path applies neither the floor nor the rounding. -/
theorem price_invariant_cex :
    tableInv [([65, 0, 0, 0, 0, 0, 0, 0, 0, 0, 0, 0], 1 / 100)]
    ∧ ¬ tableInv
        (spbUpdate [([65, 0, 0, 0, 0, 0, 0, 0, 0, 0, 0, 0], 1 / 100)] [65] (-1)).2 := by
  have hupd : spbUpdate [([65, 0, 0, 0, 0, 0, 0, 0, 0, 0, 0, 0], 1 / 100)] [65] (-1)
      = (some true, [([65, 0, 0, 0, 0, 0, 0, 0, 0, 0, 0, 0], -1)]) := by
    have h := spbUpdateGo_found (symKey [65]) (-1) []
      [65, 0, 0, 0, 0, 0, 0, 0, 0, 0, 0, 0] (1 / 100) []
      (by intro r hr; cases hr) (by decide)
    simpa using h
  constructor
  · intro r hr
    rcases List.mem_cons.mp hr with rfl | hr
    · refine ⟨le_refl _, ?_⟩
      rw [show ((([65, 0, 0, 0, 0, 0, 0, 0, 0, 0, 0, 0], 1 / 100) :
          List Nat × ℚ).2 : ℚ) = ((1 : ℤ) : ℚ) / 100 by norm_num]
      exact round2_intDiv 1
    · cases hr
  · intro hinv
    have h := hinv ([65, 0, 0, 0, 0, 0, 0, 0, 0, 0, 0, 0], -1) (by rw [hupd]; simp)
    have h1 := h.1
    simp only [PRICE_FLOOR] at h1
    norm_num at h1

/-- Claim C3 (amended): the table writers store the given price verbatim, so
the floor/precision invariant is not enforced by `update` itself; it is
established by the broadcaster's price generation — every generated price is
at least the positive floor and equal to its own two-decimal rounding — and
tables updated only with such prices keep the invariant. -/
theorem price_invariant_amended :
    (∀ price g : ℚ, priceInv (gwNewPrice price g))
    ∧ ∀ (tbl : List (List Nat × ℚ)) (symbol : List Nat) (price : ℚ),
        tableInv tbl → priceInv price →
        tableInv (spbUpdate tbl symbol price).2
        ∧ tableInv (obUpdatePrice tbl symbol price).2 := by
  refine ⟨gwNewPrice_inv, ?_⟩
  intro tbl symbol price htbl hp
  constructor
  · intro r hr
    rcases spbUpdateGo_mem (symKey symbol) price tbl r hr with hin | hpr
    · exact htbl r hin
    · rw [hpr]; exact hp
  · intro r hr
    rcases obUpdateGo_mem (obKey symbol) price tbl r hr with hin | hpr
    · exact htbl r hin
    · rw [hpr]; exact hp

/-- Witness for the amended C3. -/
theorem price_invariant_amended_witness :
    priceInv (gwNewPrice 2 1)
    ∧ (tableInv (spbUpdate [([65, 0, 0, 0, 0, 0, 0, 0, 0, 0, 0, 0], 1 / 50)] [65] 5).2
       ∧ tableInv (obUpdatePrice [([65, 0, 0, 0, 0, 0, 0, 0, 0, 0, 0, 0], 1 / 50)] [65] 5).2) := by
  have htbl : tableInv [([65, 0, 0, 0, 0, 0, 0, 0, 0, 0, 0, 0], 1 / 50)] := by
    intro r hr
    rcases List.mem_cons.mp hr with rfl | hr
    · rw [show ((([65, 0, 0, 0, 0, 0, 0, 0, 0, 0, 0, 0], 1 / 50) :
          List Nat × ℚ).2 : ℚ) = ((2 : ℤ) : ℚ) / 100 by norm_num]
      exact priceInv_cents 2 (by norm_num)
    · cases hr
  have hp : priceInv (5 : ℚ) := by
    rw [show (5 : ℚ) = ((500 : ℤ) : ℚ) / 100 by norm_num]
    exact priceInv_cents 500 (by norm_num)
  exact ⟨price_invariant_amended.1 2 1,
    price_invariant_amended.2 [([65, 0, 0, 0, 0, 0, 0, 0, 0, 0, 0, 0], 1 / 50)]
      [65] 5 htbl hp⟩

/-! ## Table lock discipline (C6)

The three lock users are instrumented with an event trace.  An injected
failure point models an arbitrary exception raised inside the locked body
(the `except Exception` / `finally` / `__exit__` paths of the sources). -/

inductive LockEv where
  | acqEx
  | acqSh
  | rel
deriving DecidableEq

/-- Scan outcome of the instrumented `SharedPriceBook.update`. -/
inductive UpdOutcome where
  | found (tbl : List (List Nat × ℚ))
  | notFound
  | raised
deriving DecidableEq

/-- The scan body of `SharedPriceBook.update`, with an exception injected
before processing record `failAt` (modelling any failure inside the `try`
block, e.g. while reading the shared buffer). -/
def spbScan (key : List Nat) (price : ℚ) (failAt : Option Nat) :
    Nat → List (List Nat × ℚ) → UpdOutcome
  | _, [] => UpdOutcome.notFound
  | i, (s, p) :: rest =>
    if failAt = some i then UpdOutcome.raised
    else if rstripNul s = key then UpdOutcome.found ((s, price) :: rest)
    else
      match spbScan key price failAt (i + 1) rest with
      | UpdOutcome.found r => UpdOutcome.found ((s, p) :: r)
      | UpdOutcome.notFound => UpdOutcome.notFound
      | UpdOutcome.raised => UpdOutcome.raised

/-- `SharedPriceBook.update` with its lock events (shared_memory_utils.py
lines 36-49): `flock(LOCK_EX)` on entry; the source has three distinct
release sites — before the in-loop `return True` (line 44), after the loop
falls through (line 46), and in the `except` handler before re-raising
(line 48).  The result is `Except.error` when the injected exception fires. -/
def spbUpdateEv (tbl : List (List Nat × ℚ)) (symbol : List Nat) (price : ℚ)
    (failAt : Option Nat) :
    List LockEv × Except Unit (Option Bool × List (List Nat × ℚ)) :=
  match spbScan (symKey symbol) price failAt 0 tbl with
  | UpdOutcome.found upd => ([LockEv.acqEx, LockEv.rel], Except.ok (some true, upd))
  | UpdOutcome.notFound => ([LockEv.acqEx, LockEv.rel], Except.ok (none, tbl))
  | UpdOutcome.raised => ([LockEv.acqEx, LockEv.rel], Except.error ())

/-- `SharedPriceBook.read` with its lock events (shared_memory_utils.py lines
53-64): `flock(LOCK_SH)` on entry, release in the single `finally` block,
which runs whether the body returns a price, returns `None`, or raises. -/
def spbReadEv (tbl : List (List Nat × ℚ)) (symbol : List Nat) (bodyRaises : Bool) :
    List LockEv × Except Unit (Option ℚ) :=
  ([LockEv.acqSh] ++ [LockEv.rel],
   if bodyRaises then Except.error () else Except.ok (spbRead tbl symbol))

/-- The `file_lock` context manager of orderbook.py lines 27-37: `__enter__`
acquires `LOCK_EX`, `__exit__` releases — and Python runs `__exit__` whether
the `with` body completed or raised. -/
def obFileLockEv (bodyRaises : Bool) : List LockEv × Except Unit Unit :=
  ([LockEv.acqEx] ++ [LockEv.rel],
   if bodyRaises then Except.error () else Except.ok ())

/-- Claim C6: the lock acquired at entry is released exactly once on every
exit path — found, not-found, and every injected error path — for
`SharedPriceBook.update`, `SharedPriceBook.read` and the orderbook
`file_lock` wrapper; no path returns or propagates with the lock held. -/
theorem lock_release_every_path :
    (∀ (tbl : List (List Nat × ℚ)) (symbol : List Nat) (price : ℚ)
        (failAt : Option Nat),
        (spbUpdateEv tbl symbol price failAt).1 = [LockEv.acqEx, LockEv.rel])
    ∧ (∀ (tbl : List (List Nat × ℚ)) (symbol : List Nat) (bodyRaises : Bool),
        (spbReadEv tbl symbol bodyRaises).1 = [LockEv.acqSh, LockEv.rel])
    ∧ ∀ bodyRaises : Bool,
        (obFileLockEv bodyRaises).1 = [LockEv.acqEx, LockEv.rel] := by
  refine ⟨?_, fun _ _ _ => rfl, fun _ => rfl⟩
  intro tbl symbol price failAt
  unfold spbUpdateEv
  cases spbScan (symKey symbol) price failAt 0 tbl <;> rfl

/-! ## Reconnect state machine (C8)

`OrderBook.run` (orderbook.py lines 107-167) and
`Strategy._listen_gateway_news` (strategy.py lines 106-151) share the same
shape: an outer loop that connects (Disconnected/Connecting), resets the
receive buffer to empty on a successful connect (`buffer = b''`, orderbook.py
line 115 / strategy.py line 113), then an inner receive loop (Streaming) in
which `socket.timeout` means `continue`, while empty data (peer closed,
raised as ConnectionError) or any other I/O error falls to the outer
`except` and reconnects after a fixed backoff. -/

inductive ConnState where
  | disconnected
  | connecting
  | streaming (buffer : List Nat)
deriving DecidableEq

inductive NetEvent where
  | retryTick
  | connectOk
  | connectFail
  | recvData (d : List Nat)
  | recvEmpty
  | recvTimeout
  | recvError
deriving DecidableEq

/-- One transition of the reconnect state machine shared by the orderbook and
the strategy receive loops.  While streaming, received bytes are appended and
all complete segments drained; events that do not apply in a state leave it
unchanged. -/
def reconnectStep : ConnState → NetEvent → ConnState
  | ConnState.disconnected, NetEvent.retryTick => ConnState.connecting
  | ConnState.connecting, NetEvent.connectOk => ConnState.streaming []
  | ConnState.connecting, NetEvent.connectFail => ConnState.disconnected
  | ConnState.streaming buf, NetEvent.recvData d =>
      ConnState.streaming (drainAll (buf ++ d)).2
  | ConnState.streaming _, NetEvent.recvEmpty => ConnState.disconnected
  | ConnState.streaming buf, NetEvent.recvTimeout => ConnState.streaming buf
  | ConnState.streaming _, NetEvent.recvError => ConnState.disconnected
  | s, _ => s

/-- Claim C8: every transition from Connecting into Streaming starts with an
empty receive buffer (no bytes survive from a previous connection); while
Streaming, a read timeout never leaves the Streaming state (same buffer),
whereas a read of no data (peer closed) or an I/O error always transitions
to Disconnected. -/
theorem reconnect_machine :
    (∀ (e : NetEvent) (buf : List Nat),
        reconnectStep ConnState.connecting e = ConnState.streaming buf → buf = [])
    ∧ (∀ buf : List Nat,
        reconnectStep (ConnState.streaming buf) NetEvent.recvTimeout
          = ConnState.streaming buf)
    ∧ ∀ buf : List Nat,
        reconnectStep (ConnState.streaming buf) NetEvent.recvEmpty
          = ConnState.disconnected
        ∧ reconnectStep (ConnState.streaming buf) NetEvent.recvError
          = ConnState.disconnected := by
  refine ⟨?_, fun _ => rfl, fun _ => ⟨rfl, rfl⟩⟩
  intro e buf h
  cases e <;> simp only [reconnectStep] at h <;> first
    | exact (ConnState.streaming.inj h).symm
    | cases h

/-- Witness for C8: a successful connect from Connecting streams with an
empty buffer. -/
theorem reconnect_machine_witness :
    reconnectStep ConnState.connecting NetEvent.connectOk = ConnState.streaming []
    ∧ ([] : List Nat) = [] :=
  ⟨rfl, reconnect_machine.1 NetEvent.connectOk [] rfl⟩

/-! ## Broadcaster fan-out and the clients lock (C5)

`GatewayServer._broadcast` (gateway.py lines 130-156) iterates a snapshot of
the subscriber list, collects every subscriber whose `sendall` raised without
aborting the pass, and — only when some subscriber died — enters
`with self.clients_lock` once to close and remove the dead ones.
`_broadcast_loop` calls it in two ways: the per-symbol price sends happen
INSIDE `with self.clients_lock` (lines 105-113), the news send outside it
(lines 116-120).  `threading.Lock` is not reentrant, so an acquire by a
thread that already holds the lock blocks forever; that outcome is modelled
as `none`.  A subscriber is its identifier plus whether `sendall` to it
succeeds during this pass. -/

structure GwSub where
  id : Nat
  sendOk : Bool
deriving DecidableEq

/-- One `_broadcast` pass, with the caller's hold on `clients_lock` explicit.
On success, returns the surviving subscriber list and how many times the
cleanup acquired the exclusive lock. -/
def gwBroadcast (lockHeldByCaller : Bool) (subs : List GwSub) :
    Option (List GwSub × Nat) :=
  let dead := subs.filter (fun s => !s.sendOk)
  if dead.isEmpty then some (subs, 0)
  else if lockHeldByCaller then none
  else some (subs.filter (fun s => s.sendOk), 1)

/-- A price-message fan-out: `_broadcast` invoked from inside
`with self.clients_lock` (gateway.py lines 105-113). -/
def gwPricePass (subs : List GwSub) : Option (List GwSub × Nat) :=
  gwBroadcast true subs

/-- The news fan-out: `_broadcast` invoked without holding the lock
(gateway.py lines 116-120). -/
def gwNewsPass (subs : List GwSub) : Option (List GwSub × Nat) :=
  gwBroadcast false subs

/-- Claim C5 (code bug): the news-path invocation implements the claimed
algorithm — a failed subscriber is removed with exactly one lock
acquisition after the pass, a healthy pass acquires it zero times — but the
price-path invocation runs the whole send pass while `_broadcast_loop`
already holds `clients_lock` (blocking acceptance), and as soon as any send
fails its cleanup re-acquires the non-reentrant lock and deadlocks. -/
theorem broadcast_fanout_deadlock :
    gwPricePass [⟨0, false⟩] = none
    ∧ gwNewsPass [⟨0, false⟩] = some ([], 1)
    ∧ gwNewsPass [⟨0, false⟩, ⟨1, true⟩] = some ([⟨1, true⟩], 1)
    ∧ gwPricePass [⟨0, true⟩] = some ([⟨0, true⟩], 0) :=
  ⟨rfl, rfl, rfl, rfl⟩

/-! ## Create-or-attach of the shared segment (C4)

The world holds the named shared segments and the single metadata file.
Segment names are numeric identifiers. -/

structure MetaFile where
  shm_name : Nat
  n : Nat
  symbols : List (List Nat)
deriving DecidableEq

structure SysWorld where
  segs : List (Nat × List (List Nat × ℚ))
  meta : Option MetaFile

structure OBState where
  symbols : List (List Nat)
  n : Nat
  shm_name : Nat
  created : Bool

def segNames (w : SysWorld) : List Nat := w.segs.map Prod.fst

/-- NUL-pad a truncated symbol into the fixed 12-byte field (numpy `S12`). -/
def padField (l : List Nat) : List Nat := l ++ List.replicate (12 - l.length) 0

/-- `OrderBook.__init__` + `_create_or_attach_shm` (orderbook.py lines
40-84): the symbol list is upper-cased and counted before creation; creating
initializes every record to the encoded truncated symbol at price 0.0 and
writes the metadata file; on `FileExistsError` the instance attaches to the
existing segment and changes nothing else — it does NOT read the metadata
file, keeps the caller's symbol list and count, and does not validate them
against the existing segment (the TODO at line 84). -/
def obCreateOrAttach (w : SysWorld) (shmName : Nat) (symbols : List (List Nat)) :
    OBState × SysWorld :=
  let syms := symbols.map pyUpper
  let n := syms.length
  if (segNames w).contains shmName then
    (⟨syms, n, shmName, false⟩, w)
  else
    let records := syms.map (fun s => (padField ((utf8Encode s).take 12), (0 : ℚ)))
    (⟨syms, n, shmName, true⟩,
     ⟨w.segs ++ [(shmName, records)], some ⟨shmName, n, syms⟩⟩)

inductive SpbErr where
  | metaMissing
  | segMissing
deriving DecidableEq

structure SPBState where
  symbols : List (List Nat)
  n : Nat
  shm_name : Nat
deriving DecidableEq

/-- `SharedPriceBook.__init__` (shared_memory_utils.py lines 13-34): raises
when the metadata file is absent; otherwise takes `shm_name`, `symbols` and
`n` from the metadata — the `symbols` parameter is accepted but never used —
and attaches to the named segment. -/
def spbInit (w : SysWorld) (symbols : List (List Nat)) : Except SpbErr SPBState :=
  match w.meta with
  | none => Except.error SpbErr.metaMissing
  | some m =>
    if (segNames w).contains m.shm_name then
      Except.ok ⟨m.symbols, m.n, m.shm_name⟩
    else Except.error SpbErr.segMissing

/-- Counterexample to claim C4 as stated: with an existing segment whose
persisted descriptor declares symbols `[A]`, an OrderBook calling
create-or-attach with symbols `[B]` attaches (no error, no new segment) but
keeps `[B]` — it does not take the descriptor's symbol list. -/
theorem create_or_attach_cex :
    (obCreateOrAttach ⟨[(1, [(padField [65], (5 : ℚ))])], some ⟨1, 1, [[65]]⟩⟩
        1 [[66]]).1.created = false
    ∧ (obCreateOrAttach ⟨[(1, [(padField [65], (5 : ℚ))])], some ⟨1, 1, [[65]]⟩⟩
        1 [[66]]).1.symbols = [[66]]
    ∧ (obCreateOrAttach ⟨[(1, [(padField [65], (5 : ℚ))])], some ⟨1, 1, [[65]]⟩⟩
        1 [[66]]).1.symbols ≠ [[65]] :=
  ⟨rfl, rfl, by intro h; cases h⟩

theorem obCreateOrAttach_attach (w : SysWorld) (name : Nat)
    (symbols : List (List Nat)) (h : (segNames w).contains name = true) :
    obCreateOrAttach w name symbols
      = (⟨symbols.map pyUpper, (symbols.map pyUpper).length, name, false⟩, w) := by
  unfold obCreateOrAttach
  rw [if_pos h]

theorem obCreateOrAttach_create (w : SysWorld) (name : Nat)
    (symbols : List (List Nat)) (h : (segNames w).contains name = false) :
    obCreateOrAttach w name symbols
      = (⟨symbols.map pyUpper, (symbols.map pyUpper).length, name, true⟩,
         ⟨w.segs ++ [(name, (symbols.map pyUpper).map
             (fun s => (padField ((utf8Encode s).take 12), (0 : ℚ))))],
          some ⟨name, (symbols.map pyUpper).length, symbols.map pyUpper⟩⟩) := by
  unfold obCreateOrAttach
  rw [if_neg (by simpa using h)]

theorem spbInit_some (w : SysWorld) (m : MetaFile) (symbols : List (List Nat))
    (hm : w.meta = some m) :
    spbInit w symbols
      = if (segNames w).contains m.shm_name then
          Except.ok ⟨m.symbols, m.n, m.shm_name⟩
        else Except.error SpbErr.segMissing := by
  unfold spbInit
  rw [hm]

/-- Claim C4 (amended): on a name collision create-or-attach attaches without
error and creates no second segment, and two calls on a fresh name create
exactly one segment with the second call attaching; but the attaching
OrderBook keeps the caller-passed (upper-cased) symbol list and count,
unvalidated against the descriptor — it is the attach-only SharedPriceBook
that takes its symbol list and capacity from the persisted descriptor,
ignoring its own symbols argument. -/
theorem create_or_attach_amended :
    (∀ (w : SysWorld) (name : Nat) (symbols : List (List Nat)),
        (segNames w).contains name = true →
        (obCreateOrAttach w name symbols).2 = w
        ∧ (obCreateOrAttach w name symbols).1.created = false
        ∧ (obCreateOrAttach w name symbols).1.symbols = symbols.map pyUpper
        ∧ (obCreateOrAttach w name symbols).1.n = symbols.length)
    ∧ (∀ (w : SysWorld) (name : Nat) (s1 s2 : List (List Nat)),
        (segNames w).contains name = false →
        (obCreateOrAttach w name s1).1.created = true
        ∧ (segNames (obCreateOrAttach w name s1).2).count name
            = (segNames w).count name + 1
        ∧ (obCreateOrAttach (obCreateOrAttach w name s1).2 name s2).1.created = false
        ∧ (obCreateOrAttach (obCreateOrAttach w name s1).2 name s2).2
            = (obCreateOrAttach w name s1).2)
    ∧ ∀ (w : SysWorld) (m : MetaFile) (s1 s2 : List (List Nat)),
        w.meta = some m →
        spbInit w s1 = spbInit w s2
        ∧ ∀ st : SPBState, spbInit w s1 = Except.ok st →
            st.symbols = m.symbols ∧ st.n = m.n := by
  refine ⟨?_, ?_, ?_⟩
  · intro w name symbols h
    rw [obCreateOrAttach_attach w name symbols h]
    exact ⟨rfl, rfl, rfl, by simp⟩
  · intro w name s1 s2 h
    have h1 := obCreateOrAttach_create w name s1 h
    have hseg : segNames (obCreateOrAttach w name s1).2 = segNames w ++ [name] := by
      rw [h1]
      simp [segNames]
    have hcontains : (segNames (obCreateOrAttach w name s1).2).contains name = true := by
      rw [hseg]
      simp
    refine ⟨by rw [h1], ?_, ?_, ?_⟩
    · rw [hseg]
      simp
    · rw [obCreateOrAttach_attach (obCreateOrAttach w name s1).2 name s2 hcontains]
    · rw [obCreateOrAttach_attach (obCreateOrAttach w name s1).2 name s2 hcontains]
  · intro w m s1 s2 hm
    rw [spbInit_some w m s1 hm, spbInit_some w m s2 hm]
    refine ⟨rfl, ?_⟩
    intro st h
    by_cases hc : (segNames w).contains m.shm_name = true
    · rw [if_pos hc] at h
      obtain rfl := Except.ok.inj h
      exact ⟨rfl, rfl⟩
    · rw [if_neg hc] at h
      cases h

/-- Witness for the amended C4: attaching to an existing segment leaves the
world unchanged, reports no creation, and a SharedPriceBook attaching to the
same world takes the descriptor's symbol list whatever argument it gets. -/
theorem create_or_attach_amended_witness :
    (obCreateOrAttach ⟨[(1, [(padField [65], (5 : ℚ))])], some ⟨1, 1, [[65]]⟩⟩
        1 [[66]]).2
      = ⟨[(1, [(padField [65], (5 : ℚ))])], some ⟨1, 1, [[65]]⟩⟩
    ∧ spbInit ⟨[(1, [(padField [65], (5 : ℚ))])], some ⟨1, 1, [[65]]⟩⟩ [[66]]
      = spbInit ⟨[(1, [(padField [65], (5 : ℚ))])], some ⟨1, 1, [[65]]⟩⟩ [[67]] :=
  ⟨(create_or_attach_amended.1
      ⟨[(1, [(padField [65], (5 : ℚ))])], some ⟨1, 1, [[65]]⟩⟩ 1 [[66]] (by decide)).1,
   (create_or_attach_amended.2.2
      ⟨[(1, [(padField [65], (5 : ℚ))])], some ⟨1, 1, [[65]]⟩⟩ ⟨1, 1, [[65]]⟩
      [[66]] [[67]] rfl).1⟩
